import Mathlib

/-!
Shallow embedding of `src/permission.rs` from rs-authorization-core:
a policy-resolution engine over a tree of conditional permissions,
with deny-override aggregation and verbatim error propagation.
-/

/-- The `Permission` enum of `permission.rs`: a two-valued access decision. -/
inductive Permission where
  | ALLOW
  | DENY
deriving DecidableEq, Repr, Fintype

/-- The `ConditionalPermission<CExp>` enum of `permission.rs`: a tree of
conditional access rules, parameterized by an opaque condition-expression
type. -/
inductive ConditionalPermission (C : Type) where
  | Silent
  | Atomic (perm : Permission) (cexp : C)
  | Fixed (perm : Permission)
  | Aggregate (perms : List (ConditionalPermission C))

/-- Modelled from the spec: the `Environment` trait lives in `condition.rs`,
which is not among the given sources; per the spec it provides a single
capability `test_condition(expression: C) -> Result<bool, E>`.  We model an
environment directly as that function, with `Except E Bool` for
`Result<bool, E>`. -/
abbrev Environment (C E : Type) : Type := C → Except E Bool

/-- The closure folded over the resolved child outcomes in the `Aggregate`
arm of `ConditionalPermission::resolve` (lines 41-46 of `permission.rs`):
absence is identity, `Some(ALLOW)` meets `Some(ALLOW)` to `Some(ALLOW)`,
every other pair of present opinions gives `Some(DENY)`. -/
def combine (a v : Option Permission) : Option Permission :=
  match a, v with
  | none, x => x
  | x, none => x
  | some .ALLOW, some .ALLOW => some .ALLOW
  | _, _ => some .DENY

mutual

/-- `ConditionalPermission::resolve` of `permission.rs`.  The `?` operator on
`test_condition` becomes an explicit match on `Except`; the `Aggregate` arm
collects the children's results (stopping at the first error, as Rust's
`collect::<Result<Vec<_>, _>>` does) and folds them with `combine`. -/
def resolve {C E : Type} : ConditionalPermission C → Environment C E → Except E (Option Permission)
  | .Silent, _ => .ok none
  | .Atomic perm cexp, environment =>
      match environment cexp with
      | .error e => .error e
      | .ok matched => if matched then .ok (some perm) else .ok none
  | .Fixed perm, _ => .ok (some perm)
  | .Aggregate perms, environment =>
      match resolveList perms environment with
      | .error e => .error e
      | .ok resolved => .ok (resolved.foldl combine none)

/-- The `perms.iter().map(|p| p.resolve(environment)).collect()` step of the
`Aggregate` arm: Rust's `FromIterator` for `Result` consumes the mapped
iterator and returns the first `Err` it meets, without consuming further. -/
def resolveList {C E : Type} : List (ConditionalPermission C) → Environment C E → Except E (List (Option Permission))
  | [], _ => .ok []
  | p :: ps, environment =>
      match resolve p environment with
      | .error e => .error e
      | .ok v =>
          match resolveList ps environment with
          | .error e => .error e
          | .ok vs => .ok (v :: vs)

end

mutual

/-- The sequence of condition expressions the evaluator is called on during
`resolve`, in call order.  This models the observable evaluator side effects
of the Rust code: `Atomic` performs exactly one call, `Silent` and `Fixed`
none, and the `Aggregate` arm's lazy `collect` into `Result` stops consuming
the mapped iterator at the first child whose resolution errs, so children
after that one are never resolved. -/
def calls {C E : Type} : ConditionalPermission C → Environment C E → List C
  | .Silent, _ => []
  | .Atomic _ cexp, _ => [cexp]
  | .Fixed _, _ => []
  | .Aggregate perms, environment => callsList perms environment

/-- Evaluator calls made while collecting the children of an `Aggregate`:
each child contributes its own calls, and iteration stops after the first
child that resolves to an error. -/
def callsList {C E : Type} : List (ConditionalPermission C) → Environment C E → List C
  | [], _ => []
  | p :: ps, environment =>
      calls p environment ++
        match resolve p environment with
        | .ok _ => callsList ps environment
        | .error _ => []

end

mutual

/-- All `Atomic` nodes of a tree, with their conditions, in depth-first
(iteration) order. -/
def atomicList {C : Type} : ConditionalPermission C → List (Permission × C)
  | .Silent => []
  | .Atomic perm cexp => [(perm, cexp)]
  | .Fixed _ => []
  | .Aggregate perms => atomicListL perms

/-- Concatenation of `atomicList` over a list of children, in order. -/
def atomicListL {C : Type} : List (ConditionalPermission C) → List (Permission × C)
  | [] => []
  | p :: ps => atomicList p ++ atomicListL ps

end

mutual

/-- Whether a tree is built only from the `Silent`, `Fixed` and `Aggregate`
variants, with no `Atomic` node at any depth. -/
def noAtomic {C : Type} : ConditionalPermission C → Bool
  | .Silent => true
  | .Atomic _ _ => false
  | .Fixed _ => true
  | .Aggregate perms => noAtomicL perms

/-- `noAtomic` over all members of a list of children. -/
def noAtomicL {C : Type} : List (ConditionalPermission C) → Bool
  | [] => true
  | p :: ps => noAtomic p && noAtomicL ps

end

/-! Concrete instances used to exercise the theorems, mirroring the test
environments of `permission.rs` (an evaluator that always matches, one that
fails on selected expressions, and one with two distinct failure values). -/

/-- An evaluator that answers `Ok(true)` for every expression. -/
def envTT : Environment Nat Nat := fun _ => .ok true

/-- An evaluator that matches expression 0, misses expression 1, and fails
with error 9 on everything else. -/
def envCases : Environment Nat Nat :=
  fun c => if c = 0 then .ok true else if c = 1 then .ok false else .error 9

/-- An evaluator that fails with error 5 on expression 0 and matches
everything else. -/
def envFailZero : Environment Nat Nat :=
  fun c => if c = 0 then .error 5 else .ok true

/-- An evaluator that fails on every expression, with two distinct error
values. -/
def envTwoErr : Environment Nat Nat :=
  fun c => if c = 0 then .error 10 else .error 20

/-- An evaluator over a Boolean error type that fails with `true` on
expression 0 and matches everything else. -/
def envFailB : Environment Nat Bool :=
  fun c => if c = 0 then .error true else .ok true

/-- A mixed list of children: a fixed allow, a fixed deny and a silence. -/
def mixedChildren : List (ConditionalPermission Nat) :=
  [.Fixed .ALLOW, .Fixed .DENY, .Silent]

/-- A list of children with one allow and one silence and no deny. -/
def allowSilent : List (ConditionalPermission Nat) :=
  [.Silent, .Fixed .ALLOW]

/-- An aggregate of two atomic children, used to observe which conditions
the evaluator is asked about. -/
def twoAtomics : ConditionalPermission Nat :=
  .Aggregate [.Atomic .ALLOW 0, .Atomic .ALLOW 1]

/-- A tree with a single erroring atomic beside a fixed allow. -/
def oneErrTree : ConditionalPermission Nat :=
  .Aggregate [.Fixed .ALLOW, .Atomic .ALLOW 0]

/-- A tree with no `Atomic` node at any depth. -/
def quietTree : ConditionalPermission Nat :=
  .Aggregate [.Silent, .Fixed .ALLOW, .Aggregate [.Fixed .DENY]]

/-! Algebra of the fold closure `combine`. -/

theorem combine_none_left : ∀ v : Option Permission, combine none v = v := by decide

theorem combine_none_right : ∀ a : Option Permission, combine a none = a := by decide

theorem combine_assoc : ∀ a b c : Option Permission,
    combine (combine a b) c = combine a (combine b c) := by decide

theorem combine_comm : ∀ a b : Option Permission, combine a b = combine b a := by decide

theorem combine_deny_left : ∀ v : Option Permission,
    combine (some .DENY) v = some .DENY := by decide

theorem combine_deny_right : ∀ a : Option Permission,
    combine a (some .DENY) = some .DENY := by decide

theorem foldl_combine_deny_acc (l : List (Option Permission)) :
    l.foldl combine (some .DENY) = some .DENY := by
  induction l with
  | nil => rfl
  | cons x l ih => rw [List.foldl_cons, combine_deny_left]; exact ih

theorem foldl_combine_deny_mem {l : List (Option Permission)}
    (h : some .DENY ∈ l) (a : Option Permission) :
    l.foldl combine a = some .DENY := by
  induction l generalizing a with
  | nil => cases h
  | cons x l ih =>
    rcases List.mem_cons.mp h with hx | hl
    · rw [List.foldl_cons, ← hx, combine_deny_right, foldl_combine_deny_acc]
    · rw [List.foldl_cons]; exact ih hl _

theorem foldl_combine_allow_acc {l : List (Option Permission)}
    (h : some .DENY ∉ l) : l.foldl combine (some .ALLOW) = some .ALLOW := by
  induction l with
  | nil => rfl
  | cons x l ih =>
    have hx : x ≠ some .DENY := fun hx => h (hx ▸ List.mem_cons_self x l)
    have hl : some .DENY ∉ l := fun hm => h (List.mem_cons_of_mem _ hm)
    have hc : combine (some .ALLOW) x = some .ALLOW := by
      cases x with
      | none => rfl
      | some p =>
        cases p with
        | ALLOW => rfl
        | DENY => exact absurd rfl hx
    rw [List.foldl_cons, hc]; exact ih hl

theorem foldl_combine_allow_mem {l : List (Option Permission)}
    (hd : some .DENY ∉ l) (ha : some .ALLOW ∈ l) :
    l.foldl combine none = some .ALLOW := by
  induction l with
  | nil => cases ha
  | cons x l ih =>
    have hx : x ≠ some .DENY := fun hx => hd (hx ▸ List.mem_cons_self x l)
    have hl : some .DENY ∉ l := fun hm => hd (List.mem_cons_of_mem _ hm)
    cases x with
    | none =>
      rw [List.foldl_cons, combine_none_left]
      have ha' : some .ALLOW ∈ l := by
        rcases List.mem_cons.mp ha with h1 | h2
        · exact absurd h1.symm (by simp)
        · exact h2
      exact ih hl ha'
    | some p =>
      cases p with
      | ALLOW => rw [List.foldl_cons]; exact foldl_combine_allow_acc hl
      | DENY => exact absurd rfl hx

theorem foldl_combine_all_none {l : List (Option Permission)}
    (h : ∀ x ∈ l, x = none) : l.foldl combine none = none := by
  induction l with
  | nil => rfl
  | cons x l ih =>
    rw [List.foldl_cons, h x (List.mem_cons_self x l), combine_none_right]
    exact ih fun x hx => h x (List.mem_cons_of_mem _ hx)

theorem foldl_combine_shift (l : List (Option Permission)) (a : Option Permission) :
    l.foldl combine a = combine a (l.foldl combine none) := by
  induction l generalizing a with
  | nil => rw [List.foldl_nil, List.foldl_nil, combine_none_right]
  | cons x l ih =>
    rw [List.foldl_cons, ih (combine a x), List.foldl_cons, combine_none_left, ih x,
      combine_assoc]

theorem foldl_combine_flatten (vxs vys vzs : List (Option Permission)) :
    (vxs ++ (vys.foldl combine none) :: vzs).foldl combine none
      = (vxs ++ (vys ++ vzs)).foldl combine none := by
  rw [List.foldl_append, List.foldl_append, List.foldl_append, List.foldl_cons,
    foldl_combine_shift vys (vxs.foldl combine none)]

theorem foldl_combine_mem_congr {vs ws : List (Option Permission)}
    (h : ∀ x, x ∈ vs ↔ x ∈ ws) :
    vs.foldl combine none = ws.foldl combine none := by
  by_cases hd : some .DENY ∈ vs
  · rw [foldl_combine_deny_mem hd, foldl_combine_deny_mem ((h _).mp hd)]
  · have hd' : some .DENY ∉ ws := fun hw => hd ((h _).mpr hw)
    by_cases ha : some .ALLOW ∈ vs
    · rw [foldl_combine_allow_mem hd ha, foldl_combine_allow_mem hd' ((h _).mp ha)]
    · have ha' : some .ALLOW ∉ ws := fun hw => ha ((h _).mpr hw)
      have hn : ∀ x ∈ vs, x = none := by
        intro x hx
        cases x with
        | none => rfl
        | some p =>
          cases p with
          | ALLOW => exact absurd hx ha
          | DENY => exact absurd hx hd
      have hn' : ∀ x ∈ ws, x = none := by
        intro x hx
        cases x with
        | none => rfl
        | some p =>
          cases p with
          | ALLOW => exact absurd hx ha'
          | DENY => exact absurd hx hd'
      rw [foldl_combine_all_none hn, foldl_combine_all_none hn']

/-! Behaviour of `resolveList` (the collect step) on successful children,
on appends, and at the first error. -/

theorem resolveList_ok_of_ok {C E : Type} (env : Environment C E) :
    ∀ l : List (ConditionalPermission C),
      (∀ p ∈ l, ∃ v, resolve p env = .ok v) →
      ∃ vs, resolveList l env = .ok vs ∧
        List.Forall₂ (fun p v => resolve p env = .ok v) l vs := by
  intro l
  induction l with
  | nil => exact fun _ => ⟨[], rfl, List.Forall₂.nil⟩
  | cons p ps ih =>
    intro h
    obtain ⟨v, hv⟩ := h p (List.mem_cons_self p ps)
    obtain ⟨vs, hvs, hf⟩ := ih fun q hq => h q (List.mem_cons_of_mem _ hq)
    exact ⟨v :: vs, by rw [resolveList, hv, hvs], List.Forall₂.cons hv hf⟩

theorem forallTwo_exists_right {α β : Type} {R : α → β → Prop}
    {l : List α} {vs : List β} (h : List.Forall₂ R l vs) :
    ∀ p ∈ l, ∃ v ∈ vs, R p v := by
  induction h with
  | nil => intro p hp; cases hp
  | cons hr _ ih =>
    intro p hp
    rcases List.mem_cons.mp hp with h1 | h2
    · exact ⟨_, List.mem_cons_self _ _, h1 ▸ hr⟩
    · obtain ⟨v, hv, hR⟩ := ih p h2
      exact ⟨v, List.mem_cons_of_mem _ hv, hR⟩

theorem forallTwo_exists_left {α β : Type} {R : α → β → Prop}
    {l : List α} {vs : List β} (h : List.Forall₂ R l vs) :
    ∀ v ∈ vs, ∃ p ∈ l, R p v := by
  induction h with
  | nil => intro v hv; cases hv
  | cons hr _ ih =>
    intro v hv
    rcases List.mem_cons.mp hv with h1 | h2
    · exact ⟨_, List.mem_cons_self _ _, h1 ▸ hr⟩
    · obtain ⟨p, hp, hR⟩ := ih v h2
      exact ⟨p, List.mem_cons_of_mem _ hp, hR⟩

theorem resolveList_append_error {C E : Type} (env : Environment C E)
    (l₁ l₂ : List (ConditionalPermission C)) (e : E)
    (h : resolveList l₁ env = .error e) :
    resolveList (l₁ ++ l₂) env = .error e := by
  induction l₁ with
  | nil => rw [resolveList] at h; cases h
  | cons p ps ih =>
    rw [List.cons_append]
    rw [resolveList] at h ⊢
    cases hp : resolve p env with
    | error e' => rw [hp] at h; exact h
    | ok v =>
      rw [hp] at h
      cases hps : resolveList ps env with
      | error e'' =>
        rw [hps] at h
        have he : e'' = e := Except.error.inj h
        subst he
        rw [ih hps]
      | ok vs => rw [hps] at h; exact Except.noConfusion h

theorem resolveList_append_ok_ok {C E : Type} (env : Environment C E)
    (l₁ l₂ : List (ConditionalPermission C)) (v₁ v₂ : List (Option Permission))
    (h₁ : resolveList l₁ env = .ok v₁) (h₂ : resolveList l₂ env = .ok v₂) :
    resolveList (l₁ ++ l₂) env = .ok (v₁ ++ v₂) := by
  induction l₁ generalizing v₁ with
  | nil =>
    rw [resolveList] at h₁
    cases h₁
    rw [List.nil_append, List.nil_append]
    exact h₂
  | cons p ps ih =>
    rw [resolveList] at h₁
    rw [List.cons_append, resolveList]
    cases hp : resolve p env with
    | error e' => rw [hp] at h₁; exact Except.noConfusion h₁
    | ok v =>
      rw [hp] at h₁
      cases hps : resolveList ps env with
      | error e'' => rw [hps] at h₁; exact Except.noConfusion h₁
      | ok vs =>
        rw [hps] at h₁
        have hv : v :: vs = v₁ := Except.ok.inj h₁
        subst hv
        rw [ih vs hps, List.cons_append]

theorem resolveList_append_ok_error {C E : Type} (env : Environment C E)
    (l₁ l₂ : List (ConditionalPermission C)) (v₁ : List (Option Permission)) (e : E)
    (h₁ : resolveList l₁ env = .ok v₁) (h₂ : resolveList l₂ env = .error e) :
    resolveList (l₁ ++ l₂) env = .error e := by
  induction l₁ generalizing v₁ with
  | nil => rw [List.nil_append]; exact h₂
  | cons p ps ih =>
    rw [resolveList] at h₁
    rw [List.cons_append, resolveList]
    cases hp : resolve p env with
    | error e' => rw [hp] at h₁; exact Except.noConfusion h₁
    | ok v =>
      rw [hp] at h₁
      cases hps : resolveList ps env with
      | error e'' => rw [hps] at h₁; exact Except.noConfusion h₁
      | ok vs =>
        rw [ih vs hps]

/-! Relating resolution outcomes to the `Atomic` nodes of a tree. -/

mutual

theorem resolve_ok_atomics {C E : Type} :
    ∀ (t : ConditionalPermission C) (env : Environment C E) (v : Option Permission),
      resolve t env = .ok v → ∀ pc ∈ atomicList t, ∃ b, env pc.2 = .ok b
  | .Silent, _, _, _ => by
      intro pc hpc
      rw [atomicList] at hpc
      cases hpc
  | .Atomic perm cexp, env, v, h => by
      intro pc hpc
      rw [atomicList] at hpc
      have hpc' : pc = (perm, cexp) := List.mem_singleton.mp hpc
      subst hpc'
      rw [resolve] at h
      cases hc : env cexp with
      | error e => rw [hc] at h; exact Except.noConfusion h
      | ok b => exact ⟨b, rfl⟩
  | .Fixed _, _, _, _ => by
      intro pc hpc
      rw [atomicList] at hpc
      cases hpc
  | .Aggregate perms, env, v, h => by
      intro pc hpc
      rw [atomicList] at hpc
      rw [resolve] at h
      cases hl : resolveList perms env with
      | error e => rw [hl] at h; exact Except.noConfusion h
      | ok vs => exact resolveList_ok_atomics perms env vs hl pc hpc

theorem resolveList_ok_atomics {C E : Type} :
    ∀ (l : List (ConditionalPermission C)) (env : Environment C E)
      (vs : List (Option Permission)),
      resolveList l env = .ok vs → ∀ pc ∈ atomicListL l, ∃ b, env pc.2 = .ok b
  | [], _, _, _ => by
      intro pc hpc
      rw [atomicListL] at hpc
      cases hpc
  | p :: ps, env, vs, h => by
      intro pc hpc
      rw [atomicListL] at hpc
      rw [resolveList] at h
      cases hp : resolve p env with
      | error e => rw [hp] at h; exact Except.noConfusion h
      | ok v =>
        rw [hp] at h
        cases hps : resolveList ps env with
        | error e => rw [hps] at h; exact Except.noConfusion h
        | ok ws =>
          rcases List.mem_append.mp hpc with h1 | h2
          · exact resolve_ok_atomics p env v hp pc h1
          · exact resolveList_ok_atomics ps env ws hps pc h2

end

mutual

theorem resolve_error_atomics {C E : Type} :
    ∀ (t : ConditionalPermission C) (env : Environment C E) (e : E),
      resolve t env = .error e → ∃ pc ∈ atomicList t, env pc.2 = .error e
  | .Silent, _, _, h => by rw [resolve] at h; exact Except.noConfusion h
  | .Atomic perm cexp, env, e, h => by
      rw [resolve] at h
      cases hc : env cexp with
      | error e' =>
        rw [hc] at h
        have he : e' = e := Except.error.inj h
        subst he
        exact ⟨(perm, cexp), by rw [atomicList]; exact List.mem_singleton.mpr rfl, hc⟩
      | ok b =>
        rw [hc] at h
        cases b
        · exact Except.noConfusion h
        · exact Except.noConfusion h
  | .Fixed _, _, _, h => by rw [resolve] at h; exact Except.noConfusion h
  | .Aggregate perms, env, e, h => by
      rw [resolve] at h
      cases hl : resolveList perms env with
      | error e' =>
        rw [hl] at h
        have he : e' = e := Except.error.inj h
        rw [he] at hl
        obtain ⟨pc, hm, he2⟩ := resolveList_error_atomics perms env e hl
        exact ⟨pc, by rw [atomicList]; exact hm, he2⟩
      | ok vs => rw [hl] at h; exact Except.noConfusion h

theorem resolveList_error_atomics {C E : Type} :
    ∀ (l : List (ConditionalPermission C)) (env : Environment C E) (e : E),
      resolveList l env = .error e → ∃ pc ∈ atomicListL l, env pc.2 = .error e
  | [], _, _, h => by rw [resolveList] at h; exact Except.noConfusion h
  | p :: ps, env, e, h => by
      rw [resolveList] at h
      cases hp : resolve p env with
      | error e' =>
        rw [hp] at h
        have he : e' = e := Except.error.inj h
        rw [he] at hp
        obtain ⟨pc, hm, he2⟩ := resolve_error_atomics p env e hp
        exact ⟨pc, by rw [atomicListL]; exact List.mem_append.mpr (.inl hm), he2⟩
      | ok v =>
        rw [hp] at h
        cases hps : resolveList ps env with
        | error e' =>
          rw [hps] at h
          have he : e' = e := Except.error.inj h
          rw [he] at hps
          obtain ⟨pc, hm, he2⟩ := resolveList_error_atomics ps env e hps
          exact ⟨pc, by rw [atomicListL]; exact List.mem_append.mpr (.inr hm), he2⟩
        | ok vs => rw [hps] at h; exact Except.noConfusion h

end

mutual

theorem resolve_noAtomic_aux {C E : Type} :
    ∀ (t : ConditionalPermission C) (env : Environment C E),
      noAtomic t = true → (∃ v, resolve t env = .ok v) ∧ calls t env = []
  | .Silent, env, _ => ⟨⟨none, rfl⟩, rfl⟩
  | .Atomic perm cexp, _, h => by rw [noAtomic] at h; cases h
  | .Fixed perm, env, _ => ⟨⟨some perm, rfl⟩, rfl⟩
  | .Aggregate perms, env, h => by
      rw [noAtomic] at h
      obtain ⟨⟨vs, hvs⟩, hc⟩ := resolveList_noAtomic_aux perms env h
      refine ⟨⟨vs.foldl combine none, ?_⟩, ?_⟩
      · rw [resolve, hvs]
      · rw [calls]; exact hc

theorem resolveList_noAtomic_aux {C E : Type} :
    ∀ (l : List (ConditionalPermission C)) (env : Environment C E),
      noAtomicL l = true → (∃ vs, resolveList l env = .ok vs) ∧ callsList l env = []
  | [], env, _ => ⟨⟨[], rfl⟩, rfl⟩
  | p :: ps, env, h => by
      rw [noAtomicL, Bool.and_eq_true] at h
      obtain ⟨⟨v, hv⟩, hcp⟩ := resolve_noAtomic_aux p env h.1
      obtain ⟨⟨vs, hvs⟩, hcs⟩ := resolveList_noAtomic_aux ps env h.2
      refine ⟨⟨v :: vs, ?_⟩, ?_⟩
      · rw [resolveList, hv, hvs]
      · rw [callsList, hcp, hv, hcs]; rfl

end

/-! Behaviour of the collect step at the first erroring child. -/

theorem resolveList_first_error {C E : Type} (env : Environment C E)
    (qs : List (ConditionalPermission C)) (p : ConditionalPermission C) (e : E) :
    ∀ ps, (∀ q ∈ ps, ∃ v, resolve q env = .ok v) → resolve p env = .error e →
      resolveList (ps ++ p :: qs) env = .error e := by
  intro ps hok he
  induction ps with
  | nil => rw [List.nil_append, resolveList, he]
  | cons q ps ih =>
    obtain ⟨v, hv⟩ := hok q (List.mem_cons_self q ps)
    rw [List.cons_append, resolveList, hv,
      ih fun r hr => hok r (List.mem_cons_of_mem _ hr)]

theorem callsList_first_error {C E : Type} (env : Environment C E)
    (qs : List (ConditionalPermission C)) (p : ConditionalPermission C) (e : E) :
    ∀ ps, (∀ q ∈ ps, ∃ v, resolve q env = .ok v) → resolve p env = .error e →
      callsList (ps ++ p :: qs) env = callsList ps env ++ calls p env := by
  intro ps hok he
  induction ps with
  | nil => simp only [List.nil_append, callsList, he, List.append_nil]
  | cons q ps ih =>
    obtain ⟨v, hv⟩ := hok q (List.mem_cons_self q ps)
    have ih' := ih fun r hr => hok r (List.mem_cons_of_mem _ hr)
    simp only [List.cons_append, callsList, hv, List.append_eq, ih', List.append_assoc]

/-! Unfolding equations for `resolve` on an `Aggregate` whose collect step
is known. -/

theorem resolve_aggregate_ok {C E : Type} (env : Environment C E)
    (ps : List (ConditionalPermission C)) (vs : List (Option Permission))
    (h : resolveList ps env = .ok vs) :
    resolve (.Aggregate ps) env = .ok (vs.foldl combine none) := by
  rw [resolve, h]

theorem resolve_aggregate_error {C E : Type} (env : Environment C E)
    (ps : List (ConditionalPermission C)) (e : E)
    (h : resolveList ps env = .error e) :
    resolve (.Aggregate ps) env = .error e := by
  rw [resolve, h]

/-- C1: for every environment and every `Aggregate` whose children all
resolve without error, if at least one child resolves to `Some(DENY)` then
the aggregate resolves to `Ok(Some(DENY))`, regardless of the position of
the deny and of how many children resolve to `Some(ALLOW)` or `None`. -/
theorem deny_override {C E : Type} (env : Environment C E)
    (ps : List (ConditionalPermission C))
    (hok : ∀ p ∈ ps, ∃ v, resolve p env = .ok v)
    (hd : ∃ p ∈ ps, resolve p env = .ok (some .DENY)) :
    resolve (.Aggregate ps) env = .ok (some .DENY) := by
  obtain ⟨vs, hvs, hf⟩ := resolveList_ok_of_ok env ps hok
  obtain ⟨p, hp, hres⟩ := hd
  obtain ⟨v, hv, hR⟩ := forallTwo_exists_right hf p hp
  have hveq : v = some .DENY := Except.ok.inj (hR.symm.trans hres)
  rw [resolve_aggregate_ok env ps vs hvs, foldl_combine_deny_mem (hveq ▸ hv)]

/-- Witness for C1: a concrete aggregate with an allow, a deny and a
silence, under the always-true evaluator, resolves to `Ok(Some(DENY))`. -/
theorem deny_override_witness :
    (∀ p ∈ mixedChildren, ∃ v, resolve p envTT = .ok v) ∧
    (∃ p ∈ mixedChildren, resolve p envTT = .ok (some .DENY)) ∧
    resolve (.Aggregate mixedChildren) envTT = .ok (some .DENY) := by
  have h1 : ∀ p ∈ mixedChildren, ∃ v, resolve p envTT = .ok v := by
    intro p hp
    rw [mixedChildren] at hp
    rcases List.mem_cons.mp hp with rfl | hp
    · exact ⟨some .ALLOW, rfl⟩
    rcases List.mem_cons.mp hp with rfl | hp
    · exact ⟨some .DENY, rfl⟩
    rcases List.mem_cons.mp hp with rfl | hp
    · exact ⟨none, rfl⟩
    · cases hp
  have h2 : ∃ p ∈ mixedChildren, resolve p envTT = .ok (some .DENY) :=
    ⟨.Fixed .DENY,
      by rw [mixedChildren]; exact List.mem_cons_of_mem _ (List.mem_cons_self _ _), rfl⟩
  exact ⟨h1, h2, deny_override envTT mixedChildren h1 h2⟩

/-- C2: for every environment and every `Aggregate` whose children all
resolve without error, if at least one child resolves to `Some(ALLOW)` and
no child resolves to `Some(DENY)` (children resolving to `None` are
allowed), then the aggregate resolves to `Ok(Some(ALLOW))`. -/
theorem all_allow {C E : Type} (env : Environment C E)
    (ps : List (ConditionalPermission C))
    (hok : ∀ p ∈ ps, ∃ v, resolve p env = .ok v)
    (ha : ∃ p ∈ ps, resolve p env = .ok (some .ALLOW))
    (hnd : ∀ p ∈ ps, resolve p env ≠ .ok (some .DENY)) :
    resolve (.Aggregate ps) env = .ok (some .ALLOW) := by
  obtain ⟨vs, hvs, hf⟩ := resolveList_ok_of_ok env ps hok
  have hdmem : some .DENY ∉ vs := by
    intro hmem
    obtain ⟨p, hp, hR⟩ := forallTwo_exists_left hf _ hmem
    exact hnd p hp hR
  obtain ⟨p, hp, hres⟩ := ha
  obtain ⟨v, hv, hR⟩ := forallTwo_exists_right hf p hp
  have hveq : v = some .ALLOW := Except.ok.inj (hR.symm.trans hres)
  rw [resolve_aggregate_ok env ps vs hvs, foldl_combine_allow_mem hdmem (hveq ▸ hv)]

/-- Witness for C2: a concrete aggregate with a silence and an allow and no
deny, under the always-true evaluator, resolves to `Ok(Some(ALLOW))`. -/
theorem all_allow_witness :
    (∀ p ∈ allowSilent, ∃ v, resolve p envTT = .ok v) ∧
    (∃ p ∈ allowSilent, resolve p envTT = .ok (some .ALLOW)) ∧
    (∀ p ∈ allowSilent, resolve p envTT ≠ .ok (some .DENY)) ∧
    resolve (.Aggregate allowSilent) envTT = .ok (some .ALLOW) := by
  have h1 : ∀ p ∈ allowSilent, ∃ v, resolve p envTT = .ok v := by
    intro p hp
    rw [allowSilent] at hp
    rcases List.mem_cons.mp hp with rfl | hp
    · exact ⟨none, rfl⟩
    rcases List.mem_cons.mp hp with rfl | hp
    · exact ⟨some .ALLOW, rfl⟩
    · cases hp
  have h2 : ∃ p ∈ allowSilent, resolve p envTT = .ok (some .ALLOW) :=
    ⟨.Fixed .ALLOW,
      by rw [allowSilent]; exact List.mem_cons_of_mem _ (List.mem_cons_self _ _), rfl⟩
  have h3 : ∀ p ∈ allowSilent, resolve p envTT ≠ .ok (some .DENY) := by
    intro p hp
    rw [allowSilent] at hp
    rcases List.mem_cons.mp hp with rfl | hp
    · exact fun hcon => Option.noConfusion (Except.ok.inj hcon)
    rcases List.mem_cons.mp hp with rfl | hp
    · exact fun hcon => Permission.noConfusion (Option.some.inj (Except.ok.inj hcon))
    · cases hp
  exact ⟨h1, h2, h3, all_allow envTT allowSilent h1 h2 h3⟩

/-- C3: for every environment, the empty aggregate resolves to `Ok(None)`;
more generally, an aggregate each of whose children resolves to `Ok(None)`
resolves to `Ok(None)`: absence is the identity of the fold. -/
theorem empty_and_silent_aggregate {C E : Type} (env : Environment C E) :
    resolve (.Aggregate ([] : List (ConditionalPermission C))) env = .ok none ∧
    ∀ ps : List (ConditionalPermission C),
      (∀ p ∈ ps, resolve p env = .ok none) →
      resolve (.Aggregate ps) env = .ok none := by
  constructor
  · rfl
  · intro ps h
    obtain ⟨vs, hvs, hf⟩ := resolveList_ok_of_ok env ps fun p hp => ⟨none, h p hp⟩
    have hn : ∀ x ∈ vs, x = none := by
      intro x hx
      obtain ⟨p, hp, hR⟩ := forallTwo_exists_left hf x hx
      exact Except.ok.inj (hR.symm.trans (h p hp))
    rw [resolve_aggregate_ok env ps vs hvs, foldl_combine_all_none hn]

/-- Witness for C3: an aggregate of two silences under the always-true
evaluator resolves to `Ok(None)`. -/
theorem empty_and_silent_aggregate_witness :
    (∀ p ∈ [(.Silent : ConditionalPermission Nat), .Silent],
      resolve p envTT = .ok none) ∧
    resolve (.Aggregate [(.Silent : ConditionalPermission Nat), .Silent]) envTT
      = .ok none := by
  have h : ∀ p ∈ [(.Silent : ConditionalPermission Nat), .Silent],
      resolve p envTT = .ok none := by
    intro p hp
    rcases List.mem_cons.mp hp with rfl | hp
    · rfl
    rcases List.mem_cons.mp hp with rfl | hp
    · rfl
    · cases hp
  exact ⟨h, (empty_and_silent_aggregate envTT).2 _ h⟩

/-- C4: for every permission, condition expression and environment,
`resolve(Atomic(p, c), env)` is `Ok(Some(p))` when `test_condition`
answers `Ok(true)`, `Ok(None)` when it answers `Ok(false)`, and `Err(e)`
when it answers `Err(e)`. -/
theorem atomic_semantics {C E : Type} (p : Permission) (c : C)
    (env : Environment C E) :
    (env c = .ok true → resolve (.Atomic p c) env = .ok (some p)) ∧
    (env c = .ok false → resolve (.Atomic p c) env = .ok none) ∧
    ∀ e, env c = .error e → resolve (.Atomic p c) env = .error e := by
  refine ⟨fun h => ?_, fun h => ?_, fun e h => ?_⟩ <;> rw [resolve, h] <;> rfl

/-- Witness for C4: an evaluator that matches 0, misses 1 and fails with 9
on 2 yields the three atomic outcomes. -/
theorem atomic_semantics_witness :
    envCases 0 = .ok true ∧ resolve (.Atomic .ALLOW 0) envCases = .ok (some .ALLOW) ∧
    envCases 1 = .ok false ∧ resolve (.Atomic .DENY 1) envCases = .ok none ∧
    envCases 2 = .error 9 ∧ resolve (.Atomic .ALLOW 2) envCases = .error 9 :=
  ⟨rfl, (atomic_semantics .ALLOW 0 envCases).1 rfl,
   rfl, (atomic_semantics .DENY 1 envCases).2.1 rfl,
   rfl, (atomic_semantics .ALLOW 2 envCases).2.2 9 rfl⟩

/-- C5 counterexample: the claim says every child is resolved (the evaluator
is called for every child's conditions) before errors are checked.  With the
evaluator failing on condition 0, resolving the aggregate of
`Atomic(ALLOW, 0)` followed by `Atomic(ALLOW, 1)` calls the evaluator only
on condition 0: Rust's `collect` into `Result` stops consuming the mapped
iterator at the first `Err`, so condition 1 of the later child is never
tested, contradicting the claim. -/
theorem eager_evaluation_cex :
    resolve twoAtomics envFailZero = .error 5 ∧
    calls twoAtomics envFailZero = [0] ∧
    (1 : Nat) ∉ calls twoAtomics envFailZero := by
  refine ⟨rfl, rfl, ?_⟩
  intro h
  rw [show calls twoAtomics envFailZero = [0] from rfl] at h
  rcases List.mem_cons.mp h with h1 | h1
  · exact Nat.noConfusion h1
  · cases h1

/-- C5 (amended): when resolving an `Aggregate`, children are resolved in
iteration order and resolution stops at the first child whose resolution
errs: the evaluator calls of every child before the first failing one all
happen (so a failure later in the sequence does not prevent them), no child
after the first failing one is resolved, and the error returned is the
first `Err` in iteration order. -/
theorem first_error_short_circuit {C E : Type} (env : Environment C E)
    (ps qs : List (ConditionalPermission C)) (p : ConditionalPermission C) (e : E)
    (hok : ∀ q ∈ ps, ∃ v, resolve q env = .ok v)
    (he : resolve p env = .error e) :
    resolve (.Aggregate (ps ++ p :: qs)) env = .error e ∧
    calls (.Aggregate (ps ++ p :: qs)) env = callsList ps env ++ calls p env := by
  constructor
  · exact resolve_aggregate_error env _ e (resolveList_first_error env qs p e ps hok he)
  · rw [calls]; exact callsList_first_error env qs p e ps hok he

/-- Witness for the amended C5: one sound child before a failing one and one
child after it; the aggregate errs with the first error and the call list
stops at the failing child. -/
theorem first_error_short_circuit_witness :
    (∀ q ∈ [(.Atomic .ALLOW 1 : ConditionalPermission Nat)],
      ∃ v, resolve q envFailZero = .ok v) ∧
    resolve (.Atomic .ALLOW 0 : ConditionalPermission Nat) envFailZero = .error 5 ∧
    resolve (.Aggregate ([.Atomic .ALLOW 1] ++ .Atomic .ALLOW 0 :: [.Atomic .ALLOW 2]))
      envFailZero = .error 5 ∧
    calls (.Aggregate ([.Atomic .ALLOW 1] ++ .Atomic .ALLOW 0 :: [.Atomic .ALLOW 2]))
      envFailZero
      = callsList [(.Atomic .ALLOW 1 : ConditionalPermission Nat)] envFailZero
        ++ calls (.Atomic .ALLOW 0 : ConditionalPermission Nat) envFailZero := by
  have h1 : ∀ q ∈ [(.Atomic .ALLOW 1 : ConditionalPermission Nat)],
      ∃ v, resolve q envFailZero = .ok v := by
    intro q hq
    rcases List.mem_cons.mp hq with rfl | hq
    · exact ⟨some .ALLOW, rfl⟩
    · cases hq
  have h2 : resolve (.Atomic .ALLOW 0 : ConditionalPermission Nat) envFailZero
      = .error 5 := rfl
  obtain ⟨hc1, hc2⟩ := first_error_short_circuit envFailZero [.Atomic .ALLOW 1]
    [.Atomic .ALLOW 2] (.Atomic .ALLOW 0) 5 h1 h2
  exact ⟨h1, h2, hc1, hc2⟩

/-- C6 counterexample: the claim quantifies over every `Atomic` node whose
condition errs and asserts the top-level result equals that node's error.
With two atomic children whose conditions err with the distinct values 10
and 20, the tree contains an atomic erring with 20, yet `resolve` returns
the first error 10, so the claim as stated is false. -/
theorem error_exact_cex :
    (Permission.ALLOW, 1) ∈ atomicList twoAtomics ∧
    envTwoErr 1 = .error 20 ∧
    resolve twoAtomics envTwoErr = .error 10 ∧
    ¬ resolve twoAtomics envTwoErr = .error 20 := by
  refine ⟨?_, rfl, rfl, ?_⟩
  · rw [show atomicList twoAtomics
      = [(Permission.ALLOW, 0), (Permission.ALLOW, 1)] from rfl]
    exact List.mem_cons_of_mem _ (List.mem_cons_self _ _)
  · intro h
    rw [show resolve twoAtomics envTwoErr = .error 10 from rfl] at h
    have h10 : (10 : Nat) = 20 := Except.error.inj h
    exact absurd h10 (by decide)

/-- C6 (amended): for every tree containing, at any nesting depth, an
`Atomic` node whose condition the evaluator answers with `Err(e)`, if every
erroring atomic condition in the tree errs with that same `e` (in
particular when only one condition errs), the top-level `resolve` returns
exactly `Err(e)`: the error value surfaces through every enclosing
`Aggregate` level unchanged, with no wrapping and no information loss. -/
theorem error_verbatim {C E : Type} (t : ConditionalPermission C)
    (env : Environment C E) (p : Permission) (c : C) (e : E)
    (hmem : (p, c) ∈ atomicList t) (herr : env c = .error e)
    (huniq : ∀ pc ∈ atomicList t, ∀ e0, env pc.2 = .error e0 → e0 = e) :
    resolve t env = .error e := by
  cases hres : resolve t env with
  | ok v =>
    obtain ⟨b, hb⟩ := resolve_ok_atomics t env v hres (p, c) hmem
    have hb' : env c = .ok b := hb
    rw [herr] at hb'
    exact Except.noConfusion hb'
  | error e' =>
    obtain ⟨pc, hm, he'⟩ := resolve_error_atomics t env e' hres
    rw [huniq pc hm e' he']

/-- Witness for the amended C6: a tree whose only erroring atomic condition
is 0, failing with the Boolean error `true`; the top-level resolve returns
exactly that error. -/
theorem error_verbatim_witness :
    (Permission.ALLOW, 0) ∈ atomicList oneErrTree ∧
    envFailB 0 = .error true ∧
    (∀ pc ∈ atomicList oneErrTree, ∀ e0, envFailB pc.2 = .error e0 → e0 = true) ∧
    resolve oneErrTree envFailB = .error true := by
  have hmem : (Permission.ALLOW, 0) ∈ atomicList oneErrTree := by
    rw [show atomicList oneErrTree = [(Permission.ALLOW, 0)] from rfl]
    exact List.mem_cons_self _ _
  have huniq : ∀ pc ∈ atomicList oneErrTree, ∀ e0,
      envFailB pc.2 = .error e0 → e0 = true := by
    intro pc hpc e0 h
    rw [show atomicList oneErrTree = [(Permission.ALLOW, 0)] from rfl] at hpc
    rcases List.mem_cons.mp hpc with rfl | hpc
    · have h' : Except.error true = Except.error e0 := h
      exact (Except.error.inj h').symm
    · cases hpc
  exact ⟨hmem, rfl, huniq, error_verbatim oneErrTree envFailB .ALLOW 0 true hmem rfl huniq⟩

/-- C7: for every environment under which all children of an `Aggregate`
resolve without error, permuting the children does not change the result of
`resolve`; the fold's combining operation is associative and commutative
over the three outcomes, with `None` as identity. -/
theorem order_invariance {C E : Type} (env : Environment C E)
    (ps qs : List (ConditionalPermission C)) (hperm : List.Perm ps qs)
    (hok : ∀ p ∈ ps, ∃ v, resolve p env = .ok v) :
    resolve (.Aggregate ps) env = resolve (.Aggregate qs) env ∧
    (∀ a b c : Option Permission, combine (combine a b) c = combine a (combine b c)) ∧
    (∀ a b : Option Permission, combine a b = combine b a) ∧
    (∀ a : Option Permission, combine none a = a) := by
  refine ⟨?_, combine_assoc, combine_comm, combine_none_left⟩
  have hok' : ∀ p ∈ qs, ∃ v, resolve p env = .ok v := fun p hp =>
    hok p (hperm.mem_iff.mpr hp)
  obtain ⟨vs, hvs, hfv⟩ := resolveList_ok_of_ok env ps hok
  obtain ⟨ws, hws, hfw⟩ := resolveList_ok_of_ok env qs hok'
  have hmem : ∀ x, x ∈ vs ↔ x ∈ ws := by
    intro x
    constructor
    · intro hx
      obtain ⟨p, hp, hR⟩ := forallTwo_exists_left hfv x hx
      obtain ⟨w, hw, hRw⟩ := forallTwo_exists_right hfw p (hperm.mem_iff.mp hp)
      have hwx : w = x := Except.ok.inj (hRw.symm.trans hR)
      exact hwx ▸ hw
    · intro hx
      obtain ⟨p, hp, hR⟩ := forallTwo_exists_left hfw x hx
      obtain ⟨w, hw, hRw⟩ := forallTwo_exists_right hfv p (hperm.mem_iff.mpr hp)
      have hwx : w = x := Except.ok.inj (hRw.symm.trans hR)
      exact hwx ▸ hw
  rw [resolve_aggregate_ok env ps vs hvs, resolve_aggregate_ok env qs ws hws,
    foldl_combine_mem_congr hmem]

/-- Witness for C7: swapping a fixed allow and a fixed deny leaves the
aggregate result unchanged. -/
theorem order_invariance_witness :
    List.Perm [ConditionalPermission.Fixed .ALLOW, (.Fixed .DENY : ConditionalPermission Nat)]
      [.Fixed .DENY, .Fixed .ALLOW] ∧
    (∀ p ∈ [ConditionalPermission.Fixed .ALLOW, (.Fixed .DENY : ConditionalPermission Nat)],
      ∃ v, resolve p envTT = .ok v) ∧
    resolve (.Aggregate [.Fixed .ALLOW, .Fixed .DENY]) envTT
      = resolve (.Aggregate [.Fixed .DENY, .Fixed .ALLOW]) envTT := by
  have hperm : List.Perm
      [ConditionalPermission.Fixed .ALLOW, (.Fixed .DENY : ConditionalPermission Nat)]
      [.Fixed .DENY, .Fixed .ALLOW] := List.Perm.swap _ _ _
  have hok : ∀ p ∈ [ConditionalPermission.Fixed .ALLOW,
      (.Fixed .DENY : ConditionalPermission Nat)], ∃ v, resolve p envTT = .ok v := by
    intro p hp
    rcases List.mem_cons.mp hp with rfl | hp
    · exact ⟨some .ALLOW, rfl⟩
    rcases List.mem_cons.mp hp with rfl | hp
    · exact ⟨some .DENY, rfl⟩
    · cases hp
  exact ⟨hperm, hok, (order_invariance envTT _ _ hperm hok).1⟩

/-- C8: for every environment and all child sequences, an `Aggregate`
containing another `Aggregate` behaves identically to flattening it one
level: `resolve(Aggregate(xs ++ [Aggregate(ys)] ++ zs))` equals
`resolve(Aggregate(xs ++ ys ++ zs))`, including in the error cases. -/
theorem aggregate_flattening {C E : Type} (env : Environment C E)
    (xs ys zs : List (ConditionalPermission C)) :
    resolve (.Aggregate (xs ++ [.Aggregate ys] ++ zs)) env
      = resolve (.Aggregate (xs ++ ys ++ zs)) env := by
  rw [List.append_assoc xs [.Aggregate ys] zs, List.singleton_append,
    List.append_assoc xs ys zs]
  cases hxs : resolveList xs env with
  | error e =>
    rw [resolve_aggregate_error env _ e (resolveList_append_error env xs _ e hxs),
      resolve_aggregate_error env _ e (resolveList_append_error env xs _ e hxs)]
  | ok vxs =>
    cases hys : resolveList ys env with
    | error e =>
      have hmid : resolveList (ConditionalPermission.Aggregate ys :: zs) env
          = .error e := by
        rw [resolveList, resolve_aggregate_error env ys e hys]
      have hrhs : resolveList (ys ++ zs) env = .error e :=
        resolveList_append_error env ys zs e hys
      rw [resolve_aggregate_error env _ e
          (resolveList_append_ok_error env xs _ vxs e hxs hmid),
        resolve_aggregate_error env _ e
          (resolveList_append_ok_error env xs _ vxs e hxs hrhs)]
    | ok vys =>
      cases hzs : resolveList zs env with
      | error e =>
        have hmid : resolveList (ConditionalPermission.Aggregate ys :: zs) env
            = .error e := by
          rw [resolveList, resolve_aggregate_ok env ys vys hys, hzs]
        have hrhs : resolveList (ys ++ zs) env = .error e :=
          resolveList_append_ok_error env ys zs vys e hys hzs
        rw [resolve_aggregate_error env _ e
            (resolveList_append_ok_error env xs _ vxs e hxs hmid),
          resolve_aggregate_error env _ e
            (resolveList_append_ok_error env xs _ vxs e hxs hrhs)]
      | ok vzs =>
        have hmid : resolveList (ConditionalPermission.Aggregate ys :: zs) env
            = .ok ((vys.foldl combine none) :: vzs) := by
          rw [resolveList, resolve_aggregate_ok env ys vys hys, hzs]
        have hlhs := resolveList_append_ok_ok env xs _ vxs _ hxs hmid
        have hrhs := resolveList_append_ok_ok env xs _ vxs _ hxs
          (resolveList_append_ok_ok env ys zs vys vzs hys hzs)
        rw [resolve_aggregate_ok env _ _ hlhs, resolve_aggregate_ok env _ _ hrhs,
          foldl_combine_flatten]

/-- C9: for every permission and every environment, `resolve(Fixed(p), env)`
is `Ok(Some(p))` unconditionally, and no evaluator call is made while
resolving a `Fixed` node. -/
theorem fixed_unconditional {C E : Type} (p : Permission) (env : Environment C E) :
    resolve (.Fixed p) env = .ok (some p) ∧ calls (.Fixed p) env = [] :=
  ⟨rfl, rfl⟩

/-- C10: for every tree built only from the `Silent`, `Fixed` and
`Aggregate` variants (no `Atomic` node anywhere) and every environment,
`resolve` never returns an error — it returns `Ok` of some tri-state
outcome — and the evaluator is never consulted. -/
theorem no_atomic_no_error {C E : Type} (t : ConditionalPermission C)
    (env : Environment C E) (h : noAtomic t = true) :
    (∃ v : Option Permission, resolve t env = .ok v) ∧ calls t env = [] :=
  resolve_noAtomic_aux t env h

/-- Witness for C10: a nested atomic-free tree resolves without error and
without evaluator calls. -/
theorem no_atomic_no_error_witness :
    noAtomic quietTree = true ∧
    (∃ v : Option Permission, resolve quietTree envTT = .ok v) ∧
    calls quietTree envTT = [] := by
  have h : noAtomic quietTree = true := rfl
  exact ⟨h, no_atomic_no_error quietTree envTT h⟩

